import Mathlib

/-!
Verification of the revenue ingestion pipelines
(`src/Actual_Revenue.py` and `src/Estimate_Revenue.py`).

The two Python scripts read a wide spreadsheet table (first column: revenue
code, second column: revenue source label, remaining columns: one per month),
validate rows by the pattern `^\d{4}\.\d{2}\.\d{2}$`, clean cell values,
reshape to long format, derive a year from the file name, and (in the
`Actual` variant) reindex to guarantee twelve canonical month rows per code.

This file gives a shallow embedding of those transformations.  A pandas cell
is a string, a number, or missing (`NaN`/`NA`); tables are lists of rows.
Numbers are modelled as rationals.  The string form of a numeric cell
(pandas `astype(str)`) is modelled as the decimal form of its integer part;
the model relies on numeric string forms only through the fact that they
never contain a `'.'`-separated 4-2-2 digit shape, which holds for Python's
float/int `str` as well.  Scientific-notation numeric strings are not
modelled in `parseNum` (no claim depends on them).
-/

namespace RevenuePipeline

/-- A spreadsheet cell as pandas sees it: a string, a numeric value,
or missing (`NaN` / `pd.NA`). -/
inductive Cell where
  | str (s : String)
  | num (q : Rat)
  | na
deriving DecidableEq

/-- One raw spreadsheet row: first column (revenue-code candidate), second
column (revenue-source label), remaining month columns. -/
structure Row where
  c0 : Cell
  c1 : Cell
  rest : List Cell
deriving DecidableEq

/-- A raw table as read with `header=3`: the stripped-to-be month column
headers and the data rows. -/
structure Table where
  monthHeaders : List String
  rows : List Row
deriving DecidableEq

/-- Python `str.isspace`-style whitespace relevant to `str.strip()`. -/
def isWS (c : Char) : Bool :=
  c == ' ' || c == '\t' || c == '\n' || c == '\r' || c == '\x0b' || c == '\x0c'

/-- Python `str.strip()` on a character list: drop leading and trailing whitespace. -/
def trimList (l : List Char) : List Char :=
  ((l.dropWhile isWS).reverse.dropWhile isWS).reverse

/-- Python `str.strip()`. -/
def stripStr (s : String) : String := String.mk (trimList s.data)

/-- Decimal digit characters. -/
def digitChar10 (n : Nat) : Char :=
  if n = 0 then '0' else if n = 1 then '1' else if n = 2 then '2'
  else if n = 3 then '3' else if n = 4 then '4' else if n = 5 then '5'
  else if n = 6 then '6' else if n = 7 then '7' else if n = 8 then '8' else '9'

/-- Decimal digits of `n` (fuel-driven so that it reduces in the kernel). -/
def natDigitsAux : Nat → Nat → List Char
  | 0, _ => []
  | fuel + 1, n =>
    if n = 0 then [] else natDigitsAux fuel (n / 10) ++ [digitChar10 (n % 10)]

/-- Python `str` of a non-negative integer. -/
def natToString (n : Nat) : String :=
  if n = 0 then "0" else String.mk (natDigitsAux (n + 1) n)

/-- Python `str` of an integer. -/
def intToString : Int → String
  | .ofNat n => natToString n
  | .negSucc n => "-" ++ natToString (n + 1)

/-- The string pandas' `astype(str)` produces for a cell: strings unchanged,
`NaN` becomes `"nan"`, numbers their decimal form (see the header comment:
only its dot-shape matters to the model). -/
def cellToString : Cell → String
  | .str s => s
  | .num q => intToString q.num
  | .na => "nan"

/-- Exact match of `\d{4}\.\d{2}\.\d{2}` against a whole character list. -/
def codeShape : List Char → Bool
  | [a, b, c, d, e, f, g, h2, i, j] =>
    a.isDigit && b.isDigit && c.isDigit && d.isDigit && (e == '.') &&
    f.isDigit && g.isDigit && (h2 == '.') && i.isDigit && j.isDigit
  | _ => false

/-- Python `re.match(r"^\d{4}\.\d{2}\.\d{2}$", s)`: anchored at the start,
and `$` also matches just before one trailing newline. -/
def matchesCode (s : String) : Bool :=
  codeShape s.data ||
    (match s.data.getLast? with
     | some c => (c == '\n') && codeShape s.data.dropLast
     | none => false)

/-- Models `df.iloc[:, 0].astype(str).str.match(pattern)` for one row
(`Actual_Revenue.py` line 50, `Estimate_Revenue.py` line 68). -/
def rowMatches (r : Row) : Bool := matchesCode (cellToString r.c0)

/-- Models `df.replace("-", pd.NA)` on one cell: only cells exactly equal to the
string `"-"` become missing (`Actual_Revenue.py` line 59). -/
def replaceDash (c : Cell) : Cell := if c = Cell.str "-" then Cell.na else c

/-- Models `df.map(lambda x: x.strip() if isinstance(x, str) else x)` on one cell
(`Actual_Revenue.py` line 60). -/
def stripCell : Cell → Cell
  | .str s => .str (stripStr s)
  | c => c

/-- Apply a cell function to every cell of a row. -/
def mapRow (f : Cell → Cell) (r : Row) : Row :=
  ⟨f r.c0, f r.c1, r.rest.map f⟩

/-- Models `df.iloc[:, 1] = df.iloc[:, 1].fillna(df.iloc[:, 0])` on one row
(`Actual_Revenue.py` line 63). -/
def fillRow (r : Row) : Row :=
  if r.c1 = Cell.na then { r with c1 := r.c0 } else r

/-- First cleaning pass: the whole-table `replace`. -/
def replacePass (t : List Row) : List Row := t.map (mapRow replaceDash)

/-- Second cleaning pass: the whole-table strip `map`. -/
def stripPass (t : List Row) : List Row := t.map (mapRow stripCell)

/-- Third cleaning pass: the source-column `fillna`. -/
def fillPass (t : List Row) : List Row := t.map fillRow

/-- The cleaning block, in source order: replace sentinel, strip strings,
fill missing sources from the code column
(`Actual_Revenue.py` lines 59-63, `Estimate_Revenue.py` lines 74-77). -/
def cleanRows (t : List Row) : List Row := fillPass (stripPass (replacePass t))

/-- A cell after one cleaning pass, fused: exact `"-"` becomes missing,
then strings are stripped. -/
def cleanCell (c : Cell) : Cell := stripCell (replaceDash c)

/-- Pair elements with their positional index starting at `n`. -/
def withIdx (n : Nat) : List α → List (Nat × α)
  | [] => []
  | a :: r => (n, a) :: withIdx (n + 1) r

/-- One long-format record as produced by `pd.melt`. -/
structure MRec where
  code : Cell
  source : Cell
  month : String
  value : Cell
deriving DecidableEq

/-- Models `pd.melt(df, id_vars=first two columns, value_vars=month columns)`:
column-major, one record per (month column, row)
(`Actual_Revenue.py` lines 74-79, `Estimate_Revenue.py` lines 85-90). -/
def melt (hs : List String) (rows : List Row) : List MRec :=
  (withIdx 0 hs).flatMap fun p =>
    rows.map fun r => ⟨r.c0, r.c1, p.2, r.rest.getD p.1 Cell.na⟩

/-- Models `re.search(r"(\d{4})", name)`: the first position where four consecutive
digits start, as a number (`Actual_Revenue.py` lines 85-90,
`Estimate_Revenue.py` lines 95-99). -/
def digVal (c : Char) : Nat := c.toNat - 48

def year4 : List Char → Option Nat
  | a :: b :: c :: d :: rest =>
    if a.isDigit && b.isDigit && c.isDigit && d.isDigit then
      some (1000 * digVal a + 100 * digVal b + 10 * digVal c + digVal d)
    else year4 (b :: c :: d :: rest)
  | _ => none

def yearFromName (s : String) : Option Nat := year4 s.data

/-- Maximal digit runs of a character list, in order. -/
def digitRunsAux : List Char → List Char → List (List Char)
  | acc, [] => if acc.isEmpty then [] else [acc.reverse]
  | acc, c :: r =>
    if c.isDigit then digitRunsAux (c :: acc) r
    else if acc.isEmpty then digitRunsAux [] r
    else acc.reverse :: digitRunsAux [] r

def digitsVal (l : List Char) : Nat := l.foldl (fun a c => 10 * a + digVal c) 0

/-- Modelled from the spec (section 4.4 YearExtractor), for comparison with
the code's `yearFromName`: "extract the first maximal run of exactly 4
consecutive digits; fail if none exists". -/
def specYearFirstExact4 (s : String) : Option Nat :=
  match (digitRunsAux [] s.data).find? (fun run => run.length == 4) with
  | some run => some (digitsVal run)
  | none => none

/-- Parse a decimal numeral: optional sign, digits, at most one dot
(`pd.to_numeric(..., errors="coerce")` on a string cell; scientific
notation is out of the model). -/
def splitDot : List Char → List Char × Option (List Char)
  | [] => ([], none)
  | c :: r =>
    if c == '.' then ([], some r)
    else
      let p := splitDot r
      (c :: p.1, p.2)

def parseNum (s : String) : Option Rat :=
  let l0 := s.data
  let l1 :=
    match l0 with
    | c :: r => if c == '-' || c == '+' then r else l0
    | [] => []
  let neg :=
    match l0 with
    | c :: _ => c == '-'
    | [] => false
  let p := splitDot l1
  let intPart := p.1
  let fracPart := (p.2).getD []
  if intPart.all Char.isDigit && fracPart.all Char.isDigit &&
      !(intPart.isEmpty && fracPart.isEmpty) then
    let numv : Nat := digitsVal intPart * 10 ^ fracPart.length + digitsVal fracPart
    let q : Rat := mkRat (Int.ofNat numv) (10 ^ fracPart.length)
    some (if neg then -q else q)
  else none

/-- Models `pd.to_numeric(value, errors="coerce")` on one cell
(`Actual_Revenue.py` line 137, `Estimate_Revenue.py` line 110). -/
def toNumericCell : Cell → Cell
  | .num q => .num q
  | .na => .na
  | .str s =>
    match parseNum s with
    | some q => .num q
    | none => .na

/-- The canonical month list (`Actual_Revenue.py` lines 106-109). -/
def monthOrder : List String :=
  ["January", "February", "March", "April", "May", "June",
   "July", "August", "September", "October", "November", "December"]

/-- Python `str.split()` (split on whitespace runs, no empty tokens). -/
def splitWSAux : List Char → List Char → List String
  | acc, [] => if acc.isEmpty then [] else [String.mk acc.reverse]
  | acc, c :: r =>
    if isWS c then
      if acc.isEmpty then splitWSAux [] r
      else String.mk acc.reverse :: splitWSAux [] r
    else splitWSAux (c :: acc) r

def splitWS (s : String) : List String := splitWSAux [] s.data

/-- Models `Actual_Revenue.py` lines 93 and 118: `Date = str(year) + " " + str(month)`
followed by `Month = Date.str.split().str[1]` (missing when there is no
second token). -/
def monthToken (y : Nat) (m : String) : Cell :=
  match (splitWS (natToString y ++ " " ++ m))[1]? with
  | some t => Cell.str t
  | none => Cell.na

/-- A melted record after the `Month`-from-`Date` derivation of the
`Actual` variant; `month2` may be missing. -/
structure MRec2 where
  code : Cell
  source : Cell
  month2 : Cell
  value : Cell
deriving DecidableEq

def toMRec2 (y : Nat) (r : MRec) : MRec2 :=
  ⟨r.code, r.source, monthToken y r.month, r.value⟩

/-- Models `pd.Series.unique`: distinct values in first-appearance order
(`Actual_Revenue.py` line 111). -/
def uniqueFirstAux : List Cell → List Cell → List Cell
  | _, [] => []
  | seen, c :: r =>
    if seen.contains c then uniqueFirstAux seen r
    else c :: uniqueFirstAux (c :: seen) r

def uniqueFirst (l : List Cell) : List Cell := uniqueFirstAux [] l

/-- Models `index.is_unique` for the `(Revenue Code, Month)` index pandas builds at
`set_index` time; `reindex` refuses duplicate labels. -/
def nodupBool : List (Cell × Cell) → Bool
  | [] => true
  | p :: r => !(r.contains p) && nodupBool r

/-- The per-file fatal errors of the pipelines. -/
inductive PErr where
  /-- Models `valid_rows.index[-1]` on an empty selection (an uncaught
  `IndexError`, `Actual_Revenue.py` line 53). -/
  | emptyValidIndex
  /-- Models the `ValueError` for no 4-digit run in the file name
  (`Actual_Revenue.py` line 88, `Estimate_Revenue.py` line 97). -/
  | noYearInName
  /-- Models the `ValueError` from `reindex` on a duplicated `(code, month)` index
  (`Actual_Revenue.py` line 123). -/
  | dupReindex
deriving DecidableEq

/-- One emitted record, shaped
`(Year, Month, Revenue_Code, Revenue_Source, Value)`. -/
structure OutRec where
  year : Nat
  month : String
  code : Cell
  source : Cell
  value : Cell
deriving DecidableEq

/-- The row block the `Actual` variant keeps: everything up to and including
the last pattern-matching row (`Actual_Revenue.py` lines 50-54).  Rows that
fail the pattern but sit before the last matching row are retained. -/
def lastMatchIdx (rows : List Row) : Option Nat :=
  (((withIdx 0 rows).filter fun p => rowMatches p.2).map fun p => p.1).getLast?

def actualValidRows (t : Table) : List Row :=
  match lastMatchIdx t.rows with
  | none => []
  | some li => t.rows.take (li + 1)

def actualCleaned (t : Table) : List Row := cleanRows (actualValidRows t)

def actualMelted (t : Table) : List MRec :=
  melt (t.monthHeaders.map stripStr) (actualCleaned t)

def actualMelted2 (t : Table) (y : Nat) : List MRec2 :=
  (actualMelted t).map (toMRec2 y)

def actualCodes (t : Table) : List Cell :=
  uniqueFirst ((actualMelted t).map fun r => r.code)

/-- One completed record for template pair `(c, m)`: the `reindex` lookup
(`Actual_Revenue.py` lines 113-127) followed by the numeric coercion of the
`Value` column (line 137). -/
def completeOne (y : Nat) (melted2 : List MRec2) (c : Cell) (m : String) : OutRec :=
  match melted2.find? (fun r => decide (r.code = c ∧ r.month2 = Cell.str m)) with
  | some r => ⟨y, m, c, r.source, toNumericCell r.value⟩
  | none => ⟨y, m, c, Cell.na, Cell.na⟩

/-- Models `reindex` over the full `codes × months` template, then `Year` reapplied
and `Value` coerced (`Actual_Revenue.py` lines 113-137). -/
def completeRows (y : Nat) (codes : List Cell) (melted2 : List MRec2) : List OutRec :=
  codes.flatMap fun c => monthOrder.map (completeOne y melted2 c)

/-- The single-file `Actual` pipeline (`Actual_Revenue.py`): truncate after
the last pattern-matching row, clean, melt, extract the year, derive
`Month` from `Date`, reindex to the twelve canonical months per distinct
code, coerce `Value`. -/
def actualPipeline (t : Table) (name : String) : Except PErr (List OutRec) :=
  match lastMatchIdx t.rows with
  | none => .error .emptyValidIndex
  | some _ =>
    match yearFromName name with
    | none => .error .noYearInName
    | some y =>
      if nodupBool ((actualMelted2 t y).map fun r => (r.code, r.month2)) then
        .ok (completeRows y (actualCodes t) (actualMelted2 t y))
      else .error .dupReindex

def estimateValidRows (t : Table) : List Row := t.rows.filter rowMatches

def estimateCleaned (t : Table) : List Row := cleanRows (estimateValidRows t)

def estimateMelted (t : Table) : List MRec :=
  melt (t.monthHeaders.map stripStr) (estimateCleaned t)

/-- The per-file `Estimate` pipeline (`Estimate_Revenue.py` lines 55-122):
filter pattern-matching rows, clean, melt, extract the year, coerce
`Value`.  There is no calendar completion and no empty-result check. -/
def estimatePipeline (t : Table) (name : String) : Except PErr (List OutRec) :=
  match yearFromName name with
  | none => .error .noYearInName
  | some y =>
    .ok ((estimateMelted t).map fun r =>
      ⟨y, r.month, r.code, r.source, toNumericCell r.value⟩)

instance {ε α : Type} [DecidableEq ε] [DecidableEq α] : DecidableEq (Except ε α) :=
  fun x y =>
    match x, y with
    | .ok a, .ok b =>
      decidable_of_iff (a = b) ⟨fun h => h ▸ rfl, fun h => Except.ok.inj h⟩
    | .ok _, .error _ => isFalse fun h => Except.noConfusion h
    | .error _, .ok _ => isFalse fun h => Except.noConfusion h
    | .error a, .error b =>
      decidable_of_iff (a = b) ⟨fun h => h ▸ rfl, fun h => Except.error.inj h⟩

/-- One discovered input file of the `Estimate` orchestrator. -/
structure FileEntry where
  name : String
  table : Table

/-- One failure report: the printed file name and error message. -/
structure LogEntry where
  name : String
  err : PErr
deriving DecidableEq

/-- The multi-file loop of `Estimate_Revenue.py` lines 51-127: each file is
processed inside `try`; an exception is turned into a log entry naming the
file and the error, and the loop continues.  `process` is the body of the
`try` block (read, transform, persist), abstract so that any per-file
failure mode is covered. -/
def runBatch (process : FileEntry → Except PErr (List OutRec)) :
    List FileEntry → List LogEntry × List OutRec
  | [] => ([], [])
  | f :: rest =>
    match process f with
    | .ok recs =>
      let p := runBatch process rest
      (p.1, recs ++ p.2)
    | .error e =>
      let p := runBatch process rest
      (⟨f.name, e⟩ :: p.1, p.2)

/-- The concrete per-file step the orchestrator runs (persistence aside). -/
def estimateStep (f : FileEntry) : Except PErr (List OutRec) :=
  estimatePipeline f.table f.name

/-- All cells of a row, positionally. -/
def rowCells (r : Row) : List Cell := r.c0 :: r.c1 :: r.rest

/-- A string cell that trims to the sentinel `"-"` without being exactly the
sentinel; one cleaning pass turns it into `"-"` instead of missing. -/
def hiddenSentinel : Cell → Bool
  | .str s => (stripStr s == "-") && !(s == "-")
  | _ => false

/-! Concrete input tables used by counterexamples and witnesses. -/

/-- Estimate-variant input with two rows carrying the same revenue code. -/
def c1tbl : Table :=
  ⟨monthOrder,
   [⟨Cell.str "1000.01.01", Cell.str "A", List.replicate 12 (Cell.num 1)⟩,
    ⟨Cell.str "1000.01.01", Cell.str "B", List.replicate 12 (Cell.num 2)⟩]⟩

/-- Actual-variant input with a non-matching `TOTAL` row before the last
matching row. -/
def c2tbl : Table :=
  ⟨monthOrder,
   [⟨Cell.str "TOTAL", Cell.na, List.replicate 12 Cell.na⟩,
    ⟨Cell.str "1000.01.01", Cell.str "Sales", List.replicate 12 (Cell.num 2)⟩]⟩

/-- A non-empty table in which no row matches the revenue-code pattern. -/
def c3tbl : Table :=
  ⟨monthOrder, [⟨Cell.str "TOTAL", Cell.na, List.replicate 12 Cell.na⟩]⟩

/-- A one-row valid table, used with a file name whose digit run is longer
than four. -/
def c4tbl : Table :=
  ⟨monthOrder, [⟨Cell.str "1000.01.01", Cell.str "Sales", List.replicate 12 (Cell.num 3)⟩]⟩

/-- A row whose source cell trims to the sentinel without being exactly it. -/
def c5tbl : List Row :=
  [⟨Cell.str "1000.01.01", Cell.str " - ", [Cell.num 5]⟩]

/-- A table on which one cleaning pass is not a fixed point. -/
def c6tbl : List Row :=
  [⟨Cell.str "1000.01.01", Cell.str " - ", [Cell.num 5]⟩,
   ⟨Cell.str "2000.05.10", Cell.na, [Cell.num 6]⟩]

/-- Actual-variant input whose month header `"Jan"` is not canonical. -/
def c7tbl : Table :=
  ⟨["Jan"], [⟨Cell.str "1000.01.01", Cell.str "Sales", [Cell.num 100]⟩]⟩

/-- Actual-variant input whose single month header is not canonical, so all
completed rows are synthesized with missing source. -/
def c9tbl : Table :=
  ⟨["Jan"], [⟨Cell.str "2000.05.10", Cell.str "Fees", [Cell.num 150]⟩]⟩

/-- Actual-variant input with a duplicated `(code, month)` pair. -/
def c10tbl : Table :=
  ⟨["January"],
   [⟨Cell.str "1000.01.01", Cell.str "A", [Cell.num 1]⟩,
    ⟨Cell.str "1000.01.01", Cell.str "B", [Cell.num 2]⟩]⟩

/-- A well-formed one-row table used by witnesses. -/
def wtbl : Table :=
  ⟨monthOrder, [⟨Cell.str "2000.05.10", Cell.na, List.replicate 12 (Cell.num 7)⟩]⟩

/-- A witness table whose source column is blank. -/
def wtbl2 : Table :=
  ⟨["January"], [⟨Cell.str "2000.05.10", Cell.na, [Cell.num 150]⟩]⟩

/-- The records the estimate pipeline emits for `wtbl` under file name
`"2021 Report.xlsx"`. -/
def wOut : List OutRec :=
  match estimatePipeline wtbl "2021 Report.xlsx" with
  | .ok L => L
  | .error _ => []

/-- The records the estimate pipeline emits for `c4tbl` under file name
`"12345 Estimate.xlsx"`. -/
def c4out : List OutRec :=
  match estimatePipeline c4tbl "12345 Estimate.xlsx" with
  | .ok L => L
  | .error _ => []

/-- Rows with no hidden sentinel, used by the idempotence witness. -/
def c6good : List Row :=
  [⟨Cell.str " 1000.01.01 ", Cell.na, [Cell.str "-", Cell.num 5]⟩]

/-- The records the estimate pipeline emits for `wtbl2` under file name
`"2020 Estimate.xlsx"`. -/
def w2Out : List OutRec :=
  match estimatePipeline wtbl2 "2020 Estimate.xlsx" with
  | .ok L => L
  | .error _ => []

/-- The records the actual pipeline emits for `wtbl` under file name
`"2021 Report.xlsx"`. -/
def c1wOut : List OutRec :=
  match actualPipeline wtbl "2021 Report.xlsx" with
  | .ok L => L
  | .error _ => []

/-! ### Basic character and string lemmas -/

theorem isWS_isDigit_false {c : Char} (h : isWS c = true) : c.isDigit = false := by
  unfold isWS at h
  simp only [Bool.or_eq_true, beq_iff_eq] at h
  rcases h with ((((h | h) | h) | h) | h) | h <;> subst h <;> decide

theorem isWS_false_of_isDigit {c : Char} (h : c.isDigit = true) : isWS c = false := by
  cases hws : isWS c
  · rfl
  · rw [isWS_isDigit_false hws] at h; cases h

theorem digitChar10_isDigit (n : Nat) : (digitChar10 n).isDigit = true := by
  unfold digitChar10
  repeat' split
  all_goals decide

theorem natDigitsAux_digits :
    ∀ fuel n {c : Char}, c ∈ natDigitsAux fuel n → c.isDigit = true := by
  intro fuel
  induction fuel with
  | zero => intro n c hc; cases hc
  | succ f ih =>
    intro n c hc
    unfold natDigitsAux at hc
    by_cases hn : n = 0
    · rw [if_pos hn] at hc; cases hc
    · rw [if_neg hn] at hc
      rcases List.mem_append.mp hc with h1 | h2
      · exact ih _ h1
      · rw [List.mem_singleton.mp h2]
        exact digitChar10_isDigit _

theorem natToString_digits {n : Nat} {c : Char}
    (hc : c ∈ (natToString n).data) : c.isDigit = true := by
  unfold natToString at hc
  by_cases hn : n = 0
  · rw [if_pos hn] at hc
    have h0 : ("0" : String).data = ['0'] := rfl
    rw [h0] at hc
    rw [List.mem_singleton.mp hc]
    decide
  · rw [if_neg hn] at hc
    exact natDigitsAux_digits _ _ hc

theorem natToString_ne_nil (n : Nat) : (natToString n).data ≠ [] := by
  unfold natToString
  by_cases hn : n = 0
  · rw [if_pos hn]; intro h; cases h
  · rw [if_neg hn]
    show natDigitsAux (n + 1) n ≠ []
    unfold natDigitsAux
    rw [if_neg hn]
    simp

theorem dropWhile_head_false {α : Type} {p : α → Bool} :
    ∀ {l : List α} {c : α}, (l.dropWhile p).head? = some c → p c = false := by
  intro l
  induction l with
  | nil => intro c h; cases h
  | cons a r ih =>
    intro c h
    rw [List.dropWhile_cons] at h
    by_cases ha : p a
    · rw [if_pos ha] at h; exact ih h
    · rw [if_neg ha] at h
      have : a = c := by
        have := h
        simp only [List.head?_cons, Option.some.injEq] at this
        exact this
      rw [← this]
      exact Bool.eq_false_iff.mpr ha

theorem dropWhile_eq_self_of_head {α : Type} {p : α → Bool} {l : List α}
    (h : ∀ c, l.head? = some c → p c = false) : l.dropWhile p = l := by
  cases l with
  | nil => rfl
  | cons a r =>
    rw [List.dropWhile_cons, if_neg]
    intro ha
    have := h a rfl
    rw [this] at ha; cases ha

theorem dropWhile_idem {α : Type} (p : α → Bool) (l : List α) :
    (l.dropWhile p).dropWhile p = l.dropWhile p :=
  dropWhile_eq_self_of_head fun _ h => dropWhile_head_false h

theorem getLast?_dropWhile {α : Type} {p : α → Bool} :
    ∀ {l : List α}, l.dropWhile p ≠ [] →
      (l.dropWhile p).getLast? = l.getLast? := by
  intro l
  induction l with
  | nil => intro h; exact absurd rfl h
  | cons a r ih =>
    intro h
    rw [List.dropWhile_cons] at h ⊢
    by_cases ha : p a
    · rw [if_pos ha] at h ⊢
      rw [ih h]
      have hr : r ≠ [] := by
        intro hrr
        rw [hrr] at h
        exact h rfl
      cases r with
      | nil => exact absurd rfl hr
      | cons b s => rw [List.getLast?_cons_cons]
    · rw [if_neg ha]

theorem trimList_idem (l : List Char) : trimList (trimList l) = trimList l := by
  unfold trimList
  by_cases hte : (l.dropWhile isWS).reverse.dropWhile isWS = []
  · rw [hte]; rfl
  · have h1 : ((l.dropWhile isWS).reverse.dropWhile isWS).reverse.dropWhile isWS =
        ((l.dropWhile isWS).reverse.dropWhile isWS).reverse := by
      apply dropWhile_eq_self_of_head
      intro c hc
      rw [List.head?_reverse, getLast?_dropWhile hte, List.getLast?_reverse] at hc
      exact dropWhile_head_false hc
    rw [h1, List.reverse_reverse, dropWhile_idem]

theorem stripStr_idem (s : String) : stripStr (stripStr s) = stripStr s :=
  congrArg String.mk (trimList_idem s.data)

theorem cleanCell_str {s : String} (h : s ≠ "-") :
    cleanCell (Cell.str s) = Cell.str (stripStr s) := by
  unfold cleanCell replaceDash
  rw [if_neg]
  · rfl
  · intro hc
    exact h (Cell.str.inj hc)

theorem cleanCell_dash : cleanCell (Cell.str "-") = Cell.na := by decide

theorem cleanCell_num (q : Rat) : cleanCell (Cell.num q) = Cell.num q := rfl

theorem cleanCell_na : cleanCell Cell.na = Cell.na := rfl

/-! ### Cleaning-block lemmas -/

theorem map_congr_mem {α β : Type} {f g : α → β} :
    ∀ {l : List α}, (∀ a ∈ l, f a = g a) → l.map f = l.map g := by
  intro l
  induction l with
  | nil => intro _; rfl
  | cons a r ih =>
    intro h
    simp only [List.map_cons]
    rw [h a (by simp), ih fun x hx => h x (by simp [hx])]

theorem mapRow_mapRow (f g : Cell → Cell) (r : Row) :
    mapRow g (mapRow f r) = mapRow (fun c => g (f c)) r := by
  unfold mapRow
  rw [List.map_map]
  rfl

theorem cleanRows_eq_map (t : List Row) :
    cleanRows t = t.map fun r => fillRow (mapRow cleanCell r) := by
  unfold cleanRows fillPass stripPass replacePass
  rw [List.map_map, List.map_map]
  apply map_congr_mem
  intro r _
  show fillRow (mapRow stripCell (mapRow replaceDash r)) = _
  rw [mapRow_mapRow]
  rfl

theorem cleanCell_idem {c : Cell} (h : hiddenSentinel c = false) :
    cleanCell (cleanCell c) = cleanCell c := by
  cases c with
  | na => rfl
  | num q => rfl
  | str s =>
    by_cases hs : s = "-"
    · subst hs
      rw [cleanCell_dash]
      exact cleanCell_na
    · rw [cleanCell_str hs]
      have hstrip : stripStr s ≠ "-" := by
        intro he
        have h' : hiddenSentinel (Cell.str s) = true := by
          simp [hiddenSentinel, he, hs]
        rw [h'] at h
        cases h
      rw [cleanCell_str hstrip, stripStr_idem]

theorem clean_fill_idem {r : Row} (h : ∀ c ∈ rowCells r, hiddenSentinel c = false) :
    fillRow (mapRow cleanCell (fillRow (mapRow cleanCell r))) =
      fillRow (mapRow cleanCell r) := by
  obtain ⟨a, b, l⟩ := r
  have h0 : hiddenSentinel a = false := h _ (by simp [rowCells])
  have h1 : hiddenSentinel b = false := h _ (by simp [rowCells])
  have hrest : ∀ c ∈ l, hiddenSentinel c = false := fun c hc =>
    h _ (by simp [rowCells]; exact Or.inr (Or.inr hc))
  have hmap : (l.map cleanCell).map cleanCell = l.map cleanCell := by
    rw [List.map_map]
    exact map_congr_mem fun c hc => cleanCell_idem (hrest c hc)
  by_cases hb : cleanCell b = Cell.na
  · have e1 : fillRow (mapRow cleanCell ⟨a, b, l⟩) =
        ⟨cleanCell a, cleanCell a, l.map cleanCell⟩ := by
      unfold mapRow fillRow
      rw [if_pos hb]
    rw [e1]
    have e2 : mapRow cleanCell (⟨cleanCell a, cleanCell a, l.map cleanCell⟩ : Row) =
        ⟨cleanCell a, cleanCell a, l.map cleanCell⟩ := by
      unfold mapRow
      rw [cleanCell_idem h0, hmap]
    rw [e2]
    unfold fillRow
    by_cases hca : cleanCell a = Cell.na
    · rw [if_pos hca]
    · rw [if_neg hca]
  · have e1 : fillRow (mapRow cleanCell ⟨a, b, l⟩) =
        ⟨cleanCell a, cleanCell b, l.map cleanCell⟩ := by
      unfold mapRow fillRow
      rw [if_neg hb]
    rw [e1]
    have e2 : mapRow cleanCell (⟨cleanCell a, cleanCell b, l.map cleanCell⟩ : Row) =
        ⟨cleanCell a, cleanCell b, l.map cleanCell⟩ := by
      unfold mapRow
      rw [cleanCell_idem h0, cleanCell_idem h1, hmap]
    rw [e2]
    unfold fillRow
    rw [if_neg hb]

/-! ### Pipeline destructuring lemmas -/

theorem estimate_ok_elim {t : Table} {name : String} {L : List OutRec}
    (h : estimatePipeline t name = Except.ok L) :
    ∃ y, yearFromName name = some y ∧
      L = (estimateMelted t).map fun r =>
        ⟨y, r.month, r.code, r.source, toNumericCell r.value⟩ := by
  unfold estimatePipeline at h
  cases hy : yearFromName name with
  | none => rw [hy] at h; simp at h
  | some y =>
    rw [hy] at h
    exact ⟨y, rfl, (Except.ok.inj h).symm⟩

theorem actual_ok_elim {t : Table} {name : String} {L : List OutRec}
    (h : actualPipeline t name = Except.ok L) :
    ∃ li y, lastMatchIdx t.rows = some li ∧ yearFromName name = some y ∧
      nodupBool ((actualMelted2 t y).map fun r => (r.code, r.month2)) = true ∧
      L = completeRows y (actualCodes t) (actualMelted2 t y) := by
  unfold actualPipeline at h
  split at h
  next => simp at h
  next li hli =>
    split at h
    next => simp at h
    next y hy =>
      split at h
      next hnd => exact ⟨li, y, hli, hy, hnd, (Except.ok.inj h).symm⟩
      next => simp at h

theorem mem_withIdx_snd {α : Type} :
    ∀ {l : List α} {n : Nat} {p : Nat × α}, p ∈ withIdx n l → p.2 ∈ l := by
  intro l
  induction l with
  | nil => intro n p hp; cases hp
  | cons a r ih =>
    intro n p hp
    unfold withIdx at hp
    rcases List.mem_cons.mp hp with h1 | h2
    · rw [h1]
      exact List.mem_cons_self _ _
    · exact List.mem_cons_of_mem _ (ih h2)

theorem lastMatchIdx_none {rows : List Row}
    (h : ∀ r ∈ rows, rowMatches r = false) : lastMatchIdx rows = none := by
  unfold lastMatchIdx
  have hnil : ((withIdx 0 rows).filter fun p => rowMatches p.2) = [] := by
    apply List.filter_eq_nil_iff.mpr
    intro p hp
    simp [h _ (mem_withIdx_snd hp)]
  rw [hnil]
  rfl

theorem flatMap_nil_of {α β : Type} (f : α → List β) (hf : ∀ a, f a = []) :
    ∀ l : List α, l.flatMap f = [] := by
  intro l
  induction l with
  | nil => rfl
  | cons a r ih => simp [List.flatMap_cons, hf a, ih]

theorem melt_nil (hs : List String) : melt hs [] = [] :=
  flatMap_nil_of _ (fun _ => rfl) _

theorem mem_melt_intro {hs : List String} {rows : List Row} {j : Nat} {h2 : String} {r : Row}
    (hj : (j, h2) ∈ withIdx 0 hs) (hr : r ∈ rows) :
    (⟨r.c0, r.c1, h2, r.rest.getD j Cell.na⟩ : MRec) ∈ melt hs rows := by
  unfold melt
  exact List.mem_flatMap.mpr ⟨(j, h2), hj, List.mem_map.mpr ⟨r, hr, rfl⟩⟩

theorem mem_melt_elim {hs : List String} {rows : List Row} {m : MRec}
    (hm : m ∈ melt hs rows) :
    ∃ j h2 r, (j, h2) ∈ withIdx 0 hs ∧ r ∈ rows ∧
      m = ⟨r.c0, r.c1, h2, r.rest.getD j Cell.na⟩ := by
  unfold melt at hm
  rcases List.mem_flatMap.mp hm with ⟨p, hp, hmem⟩
  rcases List.mem_map.mp hmem with ⟨r, hr, heq⟩
  refine ⟨p.1, p.2, r, ?_, hr, heq.symm⟩
  rw [Prod.mk.eta]
  exact hp

theorem year_completeOne (y : Nat) (m2 : List MRec2) (c : Cell) (mo : String) :
    (completeOne y m2 c mo).year = y := by
  unfold completeOne
  cases m2.find? (fun r => decide (r.code = c ∧ r.month2 = Cell.str mo)) <;> rfl

theorem code_completeOne (y : Nat) (m2 : List MRec2) (c : Cell) (mo : String) :
    (completeOne y m2 c mo).code = c := by
  unfold completeOne
  cases m2.find? (fun r => decide (r.code = c ∧ r.month2 = Cell.str mo)) <;> rfl

theorem month_completeOne (y : Nat) (m2 : List MRec2) (c : Cell) (mo : String) :
    (completeOne y m2 c mo).month = mo := by
  unfold completeOne
  cases m2.find? (fun r => decide (r.code = c ∧ r.month2 = Cell.str mo)) <;> rfl

theorem runBatch_cons_ok {process : FileEntry → Except PErr (List OutRec)} {f : FileEntry}
    {recs : List OutRec} (hf : process f = .ok recs) (rest : List FileEntry) :
    runBatch process (f :: rest) =
      ((runBatch process rest).1, recs ++ (runBatch process rest).2) := by
  simp only [runBatch, hf]

theorem runBatch_cons_err {process : FileEntry → Except PErr (List OutRec)} {f : FileEntry}
    {e : PErr} (hf : process f = .error e) (rest : List FileEntry) :
    runBatch process (f :: rest) =
      (⟨f.name, e⟩ :: (runBatch process rest).1, (runBatch process rest).2) := by
  simp only [runBatch, hf]

/-! ### Claims C3, C4, C5, C6, C8, C10 -/

/-- C3 counterexample: on a non-empty table in which zero rows match the
revenue-code pattern, the filter (Estimate) variant raises no error at all —
it silently emits an empty table (`Except.ok []`), contradicting the claim
that such a file fails with a ValidationError "no revenue rows found". -/
theorem c3_counterexample :
    c3tbl.rows ≠ [] ∧
    estimatePipeline c3tbl "2020 Estimate.xlsx" = Except.ok [] := by
  constructor
  · decide
  · decide

/-- C3 (corrected): when zero rows match the pattern, the truncate (Actual)
variant fails with an uncaught empty-index error (`valid_rows.index[-1]`,
an `IndexError`, not a ValidationError with message "no revenue rows
found"), while the filter (Estimate) variant detects nothing and emits an
empty table whenever the file name yields a year. -/
theorem c3_no_match_behavior (t : Table) (name : String)
    (h : ∀ r ∈ t.rows, rowMatches r = false) :
    actualPipeline t name = Except.error PErr.emptyValidIndex ∧
    (∀ y, yearFromName name = some y → estimatePipeline t name = Except.ok []) := by
  constructor
  · unfold actualPipeline
    rw [lastMatchIdx_none h]
  · intro y hy
    unfold estimatePipeline
    rw [hy]
    have hf : estimateMelted t = [] := by
      unfold estimateMelted estimateCleaned estimateValidRows
      rw [List.filter_eq_nil_iff.mpr (by intro r hr; simp [h r hr])]
      rw [show cleanRows [] = [] from rfl]
      exact melt_nil _
    rw [hf]
    rfl

/-- Witness for `c3_no_match_behavior` at a concrete no-match table. -/
theorem c3_no_match_behavior_witness :
    actualPipeline c3tbl "2020 Estimate.xlsx" = Except.error PErr.emptyValidIndex ∧
    estimatePipeline c3tbl "2020 Estimate.xlsx" = Except.ok [] :=
  ⟨(c3_no_match_behavior c3tbl "2020 Estimate.xlsx" (by decide)).1,
   (c3_no_match_behavior c3tbl "2020 Estimate.xlsx" (by decide)).2 2020 (by decide)⟩

/-- C4 counterexample: for the file name `"12345 Estimate.xlsx"` the only
maximal digit run has length five, so per the claim the file should fail
with a ConfigError; the code instead takes the first four consecutive
digits and emits year 1234. -/
theorem c4_counterexample :
    specYearFirstExact4 "12345 Estimate.xlsx" = none ∧
    yearFromName "12345 Estimate.xlsx" = some 1234 ∧
    estimatePipeline c4tbl "12345 Estimate.xlsx" = Except.ok c4out ∧
    c4out ≠ [] ∧ ∀ rec ∈ c4out, rec.year = 1234 := by
  refine ⟨by decide, by decide, by decide, by decide, by decide⟩

/-- C4 (corrected): the derived year is the number formed by the four
digits starting at the first position where four consecutive digits occur
(even inside a longer digit run, `re.search(r"(\d{4})")`); the pipelines
fail only when no four consecutive digits exist anywhere, and a successful
run applies that single year to every emitted record. -/
theorem c4_year_first4_uniform (t : Table) (name : String) :
    (yearFromName name = none →
      estimatePipeline t name = Except.error PErr.noYearInName ∧
      ∀ li, lastMatchIdx t.rows = some li →
        actualPipeline t name = Except.error PErr.noYearInName) ∧
    (∀ L, estimatePipeline t name = Except.ok L →
      ∃ y, yearFromName name = some y ∧ ∀ rec ∈ L, rec.year = y) ∧
    (∀ L, actualPipeline t name = Except.ok L →
      ∃ y, yearFromName name = some y ∧ ∀ rec ∈ L, rec.year = y) := by
  refine ⟨?_, ?_, ?_⟩
  · intro hn
    constructor
    · unfold estimatePipeline
      rw [hn]
    · intro li hli
      unfold actualPipeline
      rw [hli, hn]
  · intro L hL
    rcases estimate_ok_elim hL with ⟨y, hy, hLeq⟩
    refine ⟨y, hy, ?_⟩
    intro rec hrec
    rw [hLeq] at hrec
    rcases List.mem_map.mp hrec with ⟨m, _, heq⟩
    rw [← heq]
  · intro L hL
    rcases actual_ok_elim hL with ⟨li, y, _, hy, _, hLeq⟩
    refine ⟨y, hy, ?_⟩
    intro rec hrec
    rw [hLeq] at hrec
    unfold completeRows at hrec
    rcases List.mem_flatMap.mp hrec with ⟨c, _, hc2⟩
    rcases List.mem_map.mp hc2 with ⟨mo, _, heq⟩
    rw [← heq]
    exact year_completeOne y _ c mo

/-- Witness for `c4_year_first4_uniform`: a no-digit name fails, and a
successful run carries the file-name year on every record. -/
theorem c4_year_first4_uniform_witness :
    estimatePipeline wtbl "noyear.xlsx" = Except.error PErr.noYearInName ∧
    (∃ y, yearFromName "2021 Report.xlsx" = some y ∧ ∀ rec ∈ wOut, rec.year = y) :=
  ⟨((c4_year_first4_uniform wtbl "noyear.xlsx").1 (by decide)).1,
   (c4_year_first4_uniform wtbl "2021 Report.xlsx").2.1 wOut (by decide)⟩

/-- C5 counterexample: a source cell `" - "` trims to the sentinel, so per
the claim it should become missing and then be filled from the code column;
the code replaces the exact string `"-"` before trimming, so the cell
survives cleaning as the string `"-"`. -/
theorem c5_counterexample :
    cleanRows c5tbl = [⟨Cell.str "1000.01.01", Cell.str "-", [Cell.num 5]⟩] ∧
    Cell.str "-" ≠ Cell.na := by
  constructor
  · decide
  · decide

/-- C5 (corrected): cleaning first replaces cells exactly equal to `"-"`
(before any trimming) by missing, then trims string cells (non-strings
unchanged), then fills a missing source cell with that row's cleaned code
cell; a cell that merely trims to `"-"` is kept as `"-"`. -/
theorem c5_clean_characterization :
    (∀ t : List Row, cleanRows t = t.map fun r => fillRow (mapRow cleanCell r)) ∧
    (∀ s : String, s ≠ "-" → cleanCell (Cell.str s) = Cell.str (stripStr s)) ∧
    cleanCell (Cell.str "-") = Cell.na ∧
    (∀ q : Rat, cleanCell (Cell.num q) = Cell.num q) ∧
    cleanCell Cell.na = Cell.na ∧
    (∀ r : Row, (mapRow cleanCell r).c1 = Cell.na →
      (fillRow (mapRow cleanCell r)).c1 = cleanCell r.c0) := by
  refine ⟨cleanRows_eq_map, fun s hs => cleanCell_str hs, cleanCell_dash,
    cleanCell_num, cleanCell_na, ?_⟩
  intro r h
  unfold fillRow
  rw [if_pos h]
  rfl

/-- Witness for `c5_clean_characterization` at concrete cells. -/
theorem c5_clean_characterization_witness :
    cleanRows c5tbl = c5tbl.map (fun r => fillRow (mapRow cleanCell r)) ∧
    cleanCell (Cell.str " x ") = Cell.str (stripStr " x ") :=
  ⟨c5_clean_characterization.1 c5tbl,
   c5_clean_characterization.2.1 " x " (by decide)⟩

/-- C6 counterexample: re-running cleaning on cleaned data changes it.  The
first pass turns the source cell `" - "` into `"-"`; the second pass turns
that `"-"` into missing and then fills it from the code column. -/
theorem c6_counterexample : cleanRows (cleanRows c6tbl) ≠ cleanRows c6tbl := by
  decide

/-- C6 (corrected): one cleaning pass is idempotent only on tables without a
hidden sentinel, i.e. without a string cell that trims to `"-"` yet is not
exactly `"-"`; on such tables re-cleaning changes nothing. -/
theorem c6_clean_idempotent_no_hidden_sentinel (t : List Row)
    (h : ∀ r ∈ t, ∀ c ∈ rowCells r, hiddenSentinel c = false) :
    cleanRows (cleanRows t) = cleanRows t := by
  rw [cleanRows_eq_map t, cleanRows_eq_map, List.map_map]
  apply map_congr_mem
  intro r hr
  exact clean_fill_idem (h r hr)

/-- Witness for `c6_clean_idempotent_no_hidden_sentinel`. -/
theorem c6_clean_idempotent_no_hidden_sentinel_witness :
    cleanRows (cleanRows c6good) = cleanRows c6good :=
  c6_clean_idempotent_no_hidden_sentinel c6good (by decide)

/-- C8 (confirmed): the orchestrator loop processes every discovered file:
the emitted rows are exactly the concatenation of the per-file successes (a
failing file contributes zero rows), and the log contains exactly one entry
per failing file carrying that file's name and error; no per-file failure
aborts the batch.  `process` is the whole `try`-block body, so read, parse,
validation, year-extraction and persistence failures are all covered. -/
theorem c8_batch_isolation (process : FileEntry → Except PErr (List OutRec)) :
    ∀ files : List FileEntry,
      (runBatch process files).2 =
        files.flatMap (fun f => match process f with
          | .ok recs => recs
          | .error _ => []) ∧
      (runBatch process files).1 =
        files.filterMap (fun f => match process f with
          | .ok _ => none
          | .error e => some ⟨f.name, e⟩) := by
  intro files
  induction files with
  | nil => exact ⟨rfl, rfl⟩
  | cons f rest ih =>
    cases hf : process f with
    | ok recs =>
      constructor
      · rw [runBatch_cons_ok hf rest]
        show recs ++ (runBatch process rest).2 = _
        rw [List.flatMap_cons, hf, ih.1]
      · rw [runBatch_cons_ok hf rest]
        show (runBatch process rest).1 = _
        rw [List.filterMap_cons, hf, ih.2]
    | error e =>
      constructor
      · rw [runBatch_cons_err hf rest]
        show (runBatch process rest).2 = _
        rw [List.flatMap_cons, hf, ih.1]
        rfl
      · rw [runBatch_cons_err hf rest]
        show (⟨f.name, e⟩ :: (runBatch process rest).1 : List LogEntry) = _
        rw [List.filterMap_cons, hf, ih.2]

/-- C10 (confirmed): in the truncate (Actual) variant, a duplicated
`(code, month)` pair in the data reaching the calendar-completion step
makes `reindex` raise (duplicate index labels), so the file yields an error
and no output rows. -/
theorem c10_duplicate_reindex_error (t : Table) (name : String) (y li : Nat)
    (hli : lastMatchIdx t.rows = some li)
    (hy : yearFromName name = some y)
    (hdup : nodupBool ((actualMelted2 t y).map fun r => (r.code, r.month2)) = false) :
    actualPipeline t name = Except.error PErr.dupReindex := by
  unfold actualPipeline
  rw [hli, hy]
  show (if nodupBool ((actualMelted2 t y).map fun r => (r.code, r.month2)) = true then
      Except.ok (completeRows y (actualCodes t) (actualMelted2 t y))
    else Except.error PErr.dupReindex) = _
  rw [if_neg]
  rw [hdup]
  exact Bool.false_ne_true

/-- Witness for `c10_duplicate_reindex_error` at a table with two rows
sharing the revenue code. -/
theorem c10_duplicate_reindex_error_witness :
    actualPipeline c10tbl "2020 Actual.xlsx" = Except.error PErr.dupReindex :=
  c10_duplicate_reindex_error c10tbl "2020 Actual.xlsx" 2020 1
    (by decide) (by decide) (by decide)

/-! ### Pattern and code-shape lemmas -/

theorem codeShape_elim {l : List Char} (h : codeShape l = true) :
    ∃ a b c d f g i j, l = [a, b, c, d, '.', f, g, '.', i, j] ∧
      a.isDigit = true ∧ b.isDigit = true ∧ c.isDigit = true ∧ d.isDigit = true ∧
      f.isDigit = true ∧ g.isDigit = true ∧ i.isDigit = true ∧ j.isDigit = true := by
  unfold codeShape at h
  split at h
  next a b c d e f g h2 i j =>
    simp only [Bool.and_eq_true, beq_iff_eq] at h
    obtain ⟨⟨⟨⟨⟨⟨⟨⟨⟨ha, hb⟩, hc⟩, hd⟩, he⟩, hf⟩, hg⟩, hh2⟩, hi⟩, hj⟩ := h
    subst he
    subst hh2
    exact ⟨a, b, c, d, f, g, i, j, rfl, ha, hb, hc, hd, hf, hg, hi, hj⟩
  next => cases h

theorem trimList_eq_self {l : List Char}
    (h1 : ∀ c, l.head? = some c → isWS c = false)
    (h2 : ∀ c, l.getLast? = some c → isWS c = false) : trimList l = l := by
  unfold trimList
  rw [dropWhile_eq_self_of_head h1]
  rw [dropWhile_eq_self_of_head fun c hc => h2 c (by rwa [List.head?_reverse] at hc)]
  exact List.reverse_reverse l

theorem trimList_codeShape {l : List Char} (h : codeShape l = true) : trimList l = l := by
  obtain ⟨a, b, c, d, f, g, i, j, rfl, ha, _, _, _, _, _, _, hj⟩ := codeShape_elim h
  apply trimList_eq_self
  · intro x hx
    simp only [List.head?_cons, Option.some.injEq] at hx
    rw [← hx]
    exact isWS_false_of_isDigit ha
  · intro x hx
    simp only [List.getLast?_cons_cons, List.getLast?_singleton, Option.some.injEq] at hx
    rw [← hx]
    exact isWS_false_of_isDigit hj

theorem trimList_codeShape_newline {l : List Char} (h : codeShape l = true) :
    trimList (l ++ ['\n']) = l := by
  obtain ⟨a, b, c, d, f, g, i, j, rfl, ha, _, _, _, _, _, _, hj⟩ := codeShape_elim h
  unfold trimList
  rw [show ([a, b, c, d, '.', f, g, '.', i, j] ++ ['\n'] : List Char) =
      a :: [b, c, d, '.', f, g, '.', i, j, '\n'] from rfl]
  rw [List.dropWhile_cons, if_neg (by rw [isWS_false_of_isDigit ha]; exact Bool.false_ne_true)]
  rw [show (a :: [b, c, d, '.', f, g, '.', i, j, '\n'] : List Char).reverse =
      '\n' :: [j, i, '.', g, f, '.', d, c, b, a] from by simp]
  rw [List.dropWhile_cons, if_pos (by decide)]
  rw [List.dropWhile_cons, if_neg (by rw [isWS_false_of_isDigit hj]; exact Bool.false_ne_true)]
  simp

theorem stripStr_matches {s : String} (h : matchesCode s = true) :
    codeShape (stripStr s).data = true := by
  unfold matchesCode at h
  simp only [Bool.or_eq_true] at h
  rcases h with h | h
  · show codeShape (trimList s.data) = true
    rw [trimList_codeShape h]
    exact h
  · split at h
    next c hc =>
      simp only [Bool.and_eq_true, beq_iff_eq] at h
      obtain ⟨hcn, hshape⟩ := h
      subst hcn
      have hne : s.data ≠ [] := by
        intro he
        rw [he] at hc
        cases hc
      have hsplit : s.data = s.data.dropLast ++ ['\n'] := by
        have h1 := List.dropLast_append_getLast hne
        rw [List.getLast?_eq_getLast _ hne] at hc
        rw [Option.some.inj hc] at h1
        exact h1.symm
      show codeShape (trimList s.data) = true
      rw [show trimList s.data = trimList (s.data.dropLast ++ ['\n']) from
        congrArg trimList hsplit]
      rw [trimList_codeShape_newline hshape]
      exact hshape
    next => cases h

theorem dot_mem_of_matches {s : String} (h : matchesCode s = true) : '.' ∈ s.data := by
  unfold matchesCode at h
  simp only [Bool.or_eq_true] at h
  rcases h with h | h
  · obtain ⟨a, b, c, d, f, g, i, j, he, _⟩ := codeShape_elim h
    rw [he]
    simp
  · split at h
    next cc hcc =>
      simp only [Bool.and_eq_true, beq_iff_eq] at h
      obtain ⟨a, b, c, d, f, g, i, j, he, _⟩ := codeShape_elim h.2
      have hmem : '.' ∈ s.data.dropLast := by
        rw [he]
        simp
      exact (List.dropLast_sublist s.data).mem hmem
    next => cases h

theorem dot_not_mem_intToString (i : Int) : '.' ∉ (intToString i).data := by
  cases i with
  | ofNat n =>
    intro hm
    exact absurd (natToString_digits hm) (by decide)
  | negSucc n =>
    intro hm
    rw [show intToString (Int.negSucc n) = "-" ++ natToString (n + 1) from rfl] at hm
    rw [String.data_append] at hm
    rcases List.mem_append.mp hm with h1 | h2
    · rw [show ("-" : String).data = ['-'] from rfl] at h1
      cases List.mem_singleton.mp h1
    · exact absurd (natToString_digits h2) (by decide)

theorem matches_cell_str {c : Cell} (h : matchesCode (cellToString c) = true) :
    ∃ s, c = Cell.str s ∧ matchesCode s = true := by
  cases c with
  | str s => exact ⟨s, rfl, h⟩
  | na => exact absurd h (by decide)
  | num q => exact absurd (dot_mem_of_matches h) (dot_not_mem_intToString q.num)

theorem cleanCell_of_matches {c : Cell} (h : matchesCode (cellToString c) = true) :
    ∃ s, c = Cell.str s ∧ cleanCell c = Cell.str (stripStr s) ∧
      codeShape (stripStr s).data = true := by
  obtain ⟨s, rfl, hm⟩ := matches_cell_str h
  have hs : s ≠ "-" := by
    intro he
    subst he
    exact absurd hm (by decide)
  exact ⟨s, rfl, cleanCell_str hs, stripStr_matches hm⟩

theorem cleanCell_matches_ne_na {c : Cell} (h : matchesCode (cellToString c) = true) :
    cleanCell c ≠ Cell.na := by
  obtain ⟨s, rfl, hcc, _⟩ := cleanCell_of_matches h
  rw [hcc]
  intro he
  cases he

theorem fillRow_c0 (r : Row) : (fillRow r).c0 = r.c0 := by
  unfold fillRow
  split <;> rfl

theorem estimate_rec_elim {t : Table} {y : Nat} {rec : OutRec}
    (hrec : rec ∈ (estimateMelted t).map fun r =>
      (⟨y, r.month, r.code, r.source, toNumericCell r.value⟩ : OutRec)) :
    ∃ r ∈ t.rows, rowMatches r = true ∧
      rec.code = cleanCell r.c0 ∧ rec.source = (fillRow (mapRow cleanCell r)).c1 := by
  rcases List.mem_map.mp hrec with ⟨m, hm, heq⟩
  rcases mem_melt_elim hm with ⟨j, h2, row, hj, hrow, hmeq⟩
  unfold estimateCleaned estimateValidRows at hrow
  rw [cleanRows_eq_map] at hrow
  rcases List.mem_map.mp hrow with ⟨r0, hr0, hre⟩
  rcases List.mem_filter.mp hr0 with ⟨hr0mem, hr0match⟩
  refine ⟨r0, hr0mem, hr0match, ?_, ?_⟩
  · rw [← heq]
    show m.code = _
    rw [hmeq]
    show row.c0 = _
    rw [← hre, fillRow_c0]
    rfl
  · rw [← heq]
    show m.source = _
    rw [hmeq]
    show row.c1 = _
    rw [← hre]

/-! ### Uniqueness, lookup and counting lemmas -/

theorem mem_uniqueFirstAux :
    ∀ {l seen : List Cell} {x : Cell},
      x ∈ uniqueFirstAux seen l ↔ (x ∈ l ∧ x ∉ seen) := by
  intro l
  induction l with
  | nil => intro seen x; simp [uniqueFirstAux]
  | cons c r ih =>
    intro seen x
    unfold uniqueFirstAux
    by_cases hc : seen.contains c = true
    · rw [if_pos hc, ih]
      constructor
      · rintro ⟨hxr, hxs⟩
        exact ⟨List.mem_cons_of_mem _ hxr, hxs⟩
      · rintro ⟨hxcr, hxs⟩
        rcases List.mem_cons.mp hxcr with rfl | hxr
        · exact absurd (List.elem_iff.mp hc) hxs
        · exact ⟨hxr, hxs⟩
    · rw [if_neg hc]
      constructor
      · intro hx
        rcases List.mem_cons.mp hx with rfl | hx2
        · refine ⟨List.mem_cons_self _ _, ?_⟩
          intro hxs
          exact hc (List.elem_iff.mpr hxs)
        · rcases ih.mp hx2 with ⟨hxr, hxcs⟩
          refine ⟨List.mem_cons_of_mem _ hxr, ?_⟩
          intro hxs
          exact hxcs (List.mem_cons_of_mem _ hxs)
      · rintro ⟨hxcr, hxs⟩
        by_cases hxc : x = c
        · subst hxc
          exact List.mem_cons_self _ _
        · have hxr : x ∈ r := by
            rcases List.mem_cons.mp hxcr with h1 | h1
            · exact absurd h1 hxc
            · exact h1
          apply List.mem_cons_of_mem
          apply ih.mpr
          refine ⟨hxr, ?_⟩
          intro hmem
          rcases List.mem_cons.mp hmem with h3 | h3
          · exact hxc h3
          · exact hxs h3

theorem nodup_uniqueFirstAux : ∀ (l seen : List Cell), (uniqueFirstAux seen l).Nodup := by
  intro l
  induction l with
  | nil => intro seen; exact List.nodup_nil
  | cons c r ih =>
    intro seen
    unfold uniqueFirstAux
    by_cases hc : seen.contains c = true
    · rw [if_pos hc]
      exact ih _
    · rw [if_neg hc]
      refine List.nodup_cons.mpr ⟨?_, ih _⟩
      intro hmem
      rcases mem_uniqueFirstAux.mp hmem with ⟨_, hns⟩
      exact hns (List.mem_cons_self _ _)

theorem mem_uniqueFirst {l : List Cell} {x : Cell} : x ∈ uniqueFirst l ↔ x ∈ l := by
  unfold uniqueFirst
  rw [mem_uniqueFirstAux]
  simp

theorem nodup_uniqueFirst (l : List Cell) : (uniqueFirst l).Nodup :=
  nodup_uniqueFirstAux l []

theorem nodupBool_iff : ∀ {l : List (Cell × Cell)}, nodupBool l = true ↔ l.Nodup := by
  intro l
  induction l with
  | nil => simp [nodupBool]
  | cons p r ih =>
    unfold nodupBool
    rw [Bool.and_eq_true, List.nodup_cons, ih]
    constructor
    · rintro ⟨h1, h2⟩
      have hcf : r.contains p = false := by
        cases hcp : r.contains p
        · rfl
        · rw [hcp] at h1
          cases h1
      refine ⟨?_, h2⟩
      intro hmem
      have hct : r.contains p = true := List.elem_iff.mpr hmem
      rw [hct] at hcf
      cases hcf
    · rintro ⟨h1, h2⟩
      refine ⟨?_, h2⟩
      cases hcp : r.contains p
      · rfl
      · exact absurd (List.elem_iff.mp hcp) h1

theorem find?_of_nodup_keys {l : List MRec2} {c mc : Cell} {m : MRec2}
    (hm : m ∈ l) (hk1 : m.code = c) (hk2 : m.month2 = mc)
    (hnd : (l.map fun r => (r.code, r.month2)).Nodup) :
    l.find? (fun r => decide (r.code = c ∧ r.month2 = mc)) = some m := by
  induction l with
  | nil => cases hm
  | cons a r ih =>
    rw [List.map_cons, List.nodup_cons] at hnd
    rcases List.mem_cons.mp hm with rfl | hmr
    · have hpa : decide (m.code = c ∧ m.month2 = mc) = true := by
        rw [hk1, hk2]
        simp
      exact List.find?_cons_of_pos _ hpa
    · have hka : ¬ (decide (a.code = c ∧ a.month2 = mc) = true) := by
        intro hpa
        simp only [decide_eq_true_eq] at hpa
        apply hnd.1
        have hak : (a.code, a.month2) = (m.code, m.month2) := by
          rw [hpa.1, hpa.2, hk1, hk2]
        rw [hak]
        exact List.mem_map.mpr ⟨m, hmr, rfl⟩
      rw [List.find?_cons_of_neg _ (by simpa using hka)]
      exact ih hmr hnd.2

theorem countP_flatMap' {α β : Type} (f : α → List β) (p : β → Bool) :
    ∀ l : List α, (l.flatMap f).countP p = (l.map fun a => (f a).countP p).sum := by
  intro l
  induction l with
  | nil => rfl
  | cons a r ih =>
    rw [List.flatMap_cons, List.countP_append, List.map_cons, List.sum_cons, ih]

theorem sum_map_ite_count {k : Nat} {c : Cell} :
    ∀ {codes : List Cell}, codes.Nodup → c ∈ codes →
      (codes.map fun a => if a = c then k else 0).sum = k := by
  intro codes
  induction codes with
  | nil => intro _ h; cases h
  | cons a r ih =>
    intro hnd hmem
    rw [List.map_cons, List.sum_cons]
    rcases List.mem_cons.mp hmem with rfl | hmr
    · rw [if_pos rfl]
      have hzero : (r.map fun a => if a = c then k else 0).sum = 0 := by
        apply List.sum_eq_zero
        intro x hx
        rcases List.mem_map.mp hx with ⟨b, hb, hbe⟩
        rw [← hbe, if_neg]
        intro hbc
        subst hbc
        exact (List.nodup_cons.mp hnd).1 hb
      rw [hzero]
      rfl
    · have hac : a ≠ c := by
        intro he
        subst he
        exact (List.nodup_cons.mp hnd).1 hmr
      rw [if_neg hac, Nat.zero_add]
      exact ih (List.nodup_cons.mp hnd).2 hmr

theorem countP_eq_one_of_nodup {α : Type} [DecidableEq α] {l : List α} {a : α}
    (hnd : l.Nodup) (ha : a ∈ l) :
    (l.countP fun x => decide (x = a)) = 1 := by
  induction l with
  | nil => cases ha
  | cons b r ih =>
    rw [List.countP_cons]
    rcases List.mem_cons.mp ha with rfl | har
    · have h0 : (r.countP fun x => decide (x = a)) = 0 := by
        apply List.countP_eq_zero.mpr
        intro x hx
        simp only [decide_eq_true_eq]
        intro he
        subst he
        exact (List.nodup_cons.mp hnd).1 hx
      rw [h0]
      simp
    · have hba : b ≠ a := by
        intro he
        subst he
        exact (List.nodup_cons.mp hnd).1 har
      rw [ih (List.nodup_cons.mp hnd).2 har]
      simp [hba]

/-! ### Date-split lemmas for the Actual variant -/

theorem splitWSAux_no_ws :
    ∀ (b acc : List Char), (∀ c ∈ b, isWS c = false) →
      splitWSAux acc b =
        if (acc.isEmpty && b.isEmpty) = true then [] else [String.mk (acc.reverse ++ b)] := by
  intro b
  induction b with
  | nil =>
    intro acc _
    unfold splitWSAux
    by_cases ha : acc.isEmpty = true <;> simp [ha]
  | cons c r ih =>
    intro acc hws
    have hc : isWS c = false := hws c (List.mem_cons_self _ _)
    unfold splitWSAux
    rw [if_neg (by rw [hc]; exact Bool.false_ne_true)]
    rw [ih (c :: acc) (fun x hx => hws x (List.mem_cons_of_mem _ hx))]
    rw [if_neg (by simp)]
    rw [if_neg (by simp)]
    simp [List.reverse_cons, List.append_assoc]

theorem splitWSAux_mid (b : List Char) (hb : ∀ c ∈ b, isWS c = false) (hbne : b ≠ []) :
    ∀ (a acc : List Char), (∀ c ∈ a, isWS c = false) → acc ≠ [] →
      splitWSAux acc (a ++ ' ' :: b) = [String.mk (acc.reverse ++ a), String.mk b] := by
  intro a
  induction a with
  | nil =>
    intro acc _ hacc
    show splitWSAux acc (' ' :: b) = _
    unfold splitWSAux
    rw [if_pos (by decide)]
    have hae : acc.isEmpty = false := by
      cases acc
      · exact absurd rfl hacc
      · rfl
    rw [if_neg (by rw [hae]; exact Bool.false_ne_true)]
    rw [splitWSAux_no_ws b [] hb]
    have hbe : b.isEmpty = false := by
      cases b
      · exact absurd rfl hbne
      · rfl
    rw [if_neg (by rw [hbe]; simp)]
    simp
  | cons c a' ih =>
    intro acc hws hacc
    have hc : isWS c = false := hws c (List.mem_cons_self _ _)
    show splitWSAux acc ((c :: a') ++ ' ' :: b) = _
    rw [List.cons_append]
    unfold splitWSAux
    rw [if_neg (by rw [hc]; exact Bool.false_ne_true)]
    rw [ih (c :: acc) (fun x hx => hws x (List.mem_cons_of_mem _ hx)) (by simp)]
    simp [List.reverse_cons, List.append_assoc]

theorem splitWS_two (a b : List Char) (ha : ∀ c ∈ a, isWS c = false) (hane : a ≠ [])
    (hb : ∀ c ∈ b, isWS c = false) (hbne : b ≠ []) :
    splitWSAux [] (a ++ ' ' :: b) = [String.mk a, String.mk b] := by
  cases a with
  | nil => exact absurd rfl hane
  | cons c a' =>
    show splitWSAux [] ((c :: a') ++ ' ' :: b) = _
    rw [List.cons_append]
    unfold splitWSAux
    rw [if_neg (by rw [ha c (List.mem_cons_self _ _)]; exact Bool.false_ne_true)]
    rw [splitWSAux_mid b hb hbne a' [c]
      (fun x hx => ha x (List.mem_cons_of_mem _ hx)) (by simp)]
    rfl

theorem natToString_no_ws (y : Nat) : ∀ c ∈ (natToString y).data, isWS c = false :=
  fun _ hc => isWS_false_of_isDigit (natToString_digits hc)

theorem month_data_facts :
    ∀ m ∈ monthOrder, m.data ≠ [] ∧ ∀ c ∈ m.data, isWS c = false := by
  decide

theorem monthToken_canonical (y : Nat) {m : String} (hm : m ∈ monthOrder) :
    monthToken y m = Cell.str m := by
  unfold monthToken
  obtain ⟨hmne, hmws⟩ := month_data_facts m hm
  have hdata : (natToString y ++ " " ++ m).data =
      (natToString y).data ++ (' ' :: m.data) := by
    rw [String.data_append, String.data_append]
    rw [show (" " : String).data = [' '] from rfl]
    rw [List.append_assoc]
    rfl
  rw [show splitWS (natToString y ++ " " ++ m) =
      splitWSAux [] ((natToString y).data ++ ' ' :: m.data) from by
    unfold splitWS
    rw [hdata]]
  rw [splitWS_two _ _ (natToString_no_ws y) (natToString_ne_nil y) hmws hmne]
  rfl

/-! ### Claims C2 and C9 -/

/-- C2 counterexample: the truncate (Actual) variant keeps every row at or
before the last pattern-matching row, so the non-matching `"TOTAL"` row of
`c2tbl` contributes twelve completed output records whose RevenueCode is
`"TOTAL"`, which does not match the pattern. -/
theorem c2_counterexample :
    (match actualPipeline c2tbl "2020 Actual.xlsx" with
     | .ok L => L.countP fun rec => decide (rec.code = Cell.str "TOTAL")
     | .error _ => 0) = 12 ∧
    matchesCode "TOTAL" = false := by
  constructor
  · decide
  · decide

/-- C2 (corrected): in the filter (Estimate) variant every emitted record's
RevenueCode is a string exactly matching the `\d{4}\.\d{2}\.\d{2}` shape,
and every record originates from a row whose first column passed the
pattern, so rows failing the pattern contribute zero records there.  In the
truncate (Actual) variant only rows after the last matching row are
dropped; non-matching rows before it are retained (see the
counterexample). -/
theorem c2_estimate_codes_valid (t : Table) (name : String) (L : List OutRec)
    (h : estimatePipeline t name = Except.ok L) :
    (∀ rec ∈ L, ∃ s, rec.code = Cell.str s ∧ codeShape s.data = true) ∧
    (∀ rec ∈ L, ∃ r ∈ t.rows, rowMatches r = true ∧ rec.code = cleanCell r.c0) := by
  rcases estimate_ok_elim h with ⟨y, hy, hLeq⟩
  subst hLeq
  constructor
  · intro rec hrec
    rcases estimate_rec_elim hrec with ⟨r, _, hmatch, hcode, _⟩
    obtain ⟨s, hcs, hclean, hshape⟩ := cleanCell_of_matches hmatch
    refine ⟨stripStr s, ?_, hshape⟩
    rw [hcode, hclean]
  · intro rec hrec
    rcases estimate_rec_elim hrec with ⟨r, hrmem, hrmatch, hcode, _⟩
    exact ⟨r, hrmem, hrmatch, hcode⟩

/-- Witness for `c2_estimate_codes_valid` on a concrete successful run. -/
theorem c2_estimate_codes_valid_witness :
    (∀ rec ∈ wOut, ∃ s, rec.code = Cell.str s ∧ codeShape s.data = true) ∧
    (∀ rec ∈ wOut, ∃ r ∈ wtbl.rows, rowMatches r = true ∧ rec.code = cleanCell r.c0) :=
  c2_estimate_codes_valid wtbl "2021 Report.xlsx" wOut (by decide)

/-- C9 counterexample: in the truncate (Actual) variant, calendar
completion synthesizes records for months absent from the data with a
missing RevenueSource; on `c9tbl` (whose only month header `"Jan"` is not
canonical) all twelve completed records for the code carry a missing
source, so not every emitted record has a non-missing source label. -/
theorem c9_counterexample :
    (match actualPipeline c9tbl "2020 Actual.xlsx" with
     | .ok L => L.countP fun rec => decide (rec.source = Cell.na)
     | .error _ => 0) = 12 := by
  decide

/-- C9 (corrected): in the filter (Estimate) variant every emitted record
has a non-missing RevenueSource, and a validated row whose source cell is
blank gets its (cleaned) RevenueCode as the source of each of its records;
in the truncate (Actual) variant, completion-synthesized records have a
missing source (see the counterexample). -/
theorem c9_estimate_source_filled (t : Table) (name : String) (L : List OutRec)
    (h : estimatePipeline t name = Except.ok L) :
    (∀ rec ∈ L, rec.source ≠ Cell.na) ∧
    (∀ r ∈ t.rows, rowMatches r = true → r.c1 = Cell.na →
      ∀ j h2, (j, h2) ∈ withIdx 0 (t.monthHeaders.map stripStr) →
        ∃ rec ∈ L, rec.month = h2 ∧ rec.code = cleanCell r.c0 ∧
          rec.source = cleanCell r.c0) := by
  rcases estimate_ok_elim h with ⟨y, hy, hLeq⟩
  subst hLeq
  constructor
  · intro rec hrec
    rcases estimate_rec_elim hrec with ⟨r, _, hmatch, _, hsource⟩
    rw [hsource]
    unfold fillRow
    by_cases hcc : (mapRow cleanCell r).c1 = Cell.na
    · rw [if_pos hcc]
      show cleanCell r.c0 ≠ Cell.na
      exact cleanCell_matches_ne_na hmatch
    · rw [if_neg hcc]
      exact hcc
  · intro r hrmem hrmatch hc1 j h2 hj
    have hrow : fillRow (mapRow cleanCell r) ∈ estimateCleaned t := by
      unfold estimateCleaned estimateValidRows
      rw [cleanRows_eq_map]
      exact List.mem_map.mpr ⟨r, List.mem_filter.mpr ⟨hrmem, hrmatch⟩, rfl⟩
    have hmelt := mem_melt_intro hj hrow
    have hcl1 : (mapRow cleanCell r).c1 = Cell.na := by
      show cleanCell r.c1 = Cell.na
      rw [hc1]
      rfl
    have hrow1 : (fillRow (mapRow cleanCell r)).c1 = cleanCell r.c0 := by
      unfold fillRow
      rw [if_pos hcl1]
      rfl
    refine ⟨⟨y, h2, cleanCell r.c0, cleanCell r.c0,
      toNumericCell ((fillRow (mapRow cleanCell r)).rest.getD j Cell.na)⟩, ?_, rfl, rfl, rfl⟩
    apply List.mem_map.mpr
    refine ⟨⟨(fillRow (mapRow cleanCell r)).c0, (fillRow (mapRow cleanCell r)).c1, h2,
      (fillRow (mapRow cleanCell r)).rest.getD j Cell.na⟩, hmelt, ?_⟩
    rw [fillRow_c0, hrow1]
    rfl

/-! ### Completion block lemmas -/

theorem monthOrder_nodup : monthOrder.Nodup := by decide

theorem mem_melt_codes {hs : List String} {rows : List Row} {r : Row}
    (hne : hs ≠ []) (hr : r ∈ rows) :
    r.c0 ∈ (melt hs rows).map fun m => m.code := by
  cases hs with
  | nil => exact absurd rfl hne
  | cons h0 hs' =>
    apply List.mem_map.mpr
    refine ⟨⟨r.c0, r.c1, h0, r.rest.getD 0 Cell.na⟩, ?_, rfl⟩
    apply mem_melt_intro ?_ hr
    show (0, h0) ∈ withIdx 0 (h0 :: hs')
    unfold withIdx
    exact List.mem_cons_self _ _

theorem block_countP_code (y : Nat) (m2 : List MRec2) (c' c : Cell) :
    ((monthOrder.map (completeOne y m2 c')).countP fun rec => decide (rec.code = c)) =
      if c' = c then 12 else 0 := by
  rw [List.countP_map]
  by_cases he : c' = c
  · rw [if_pos he]
    have h1 : (monthOrder.countP
        ((fun rec => decide (rec.code = c)) ∘ completeOne y m2 c')) = monthOrder.length := by
      apply List.countP_eq_length.mpr
      intro mo _
      show decide ((completeOne y m2 c' mo).code = c) = true
      rw [code_completeOne, he]
      simp
    rw [h1]
    rfl
  · rw [if_neg he]
    apply List.countP_eq_zero.mpr
    intro mo _
    show ¬ (decide ((completeOne y m2 c' mo).code = c) = true)
    rw [code_completeOne]
    simp [he]

theorem block_countP_pair (y : Nat) (m2 : List MRec2) (c' c : Cell) (m : String)
    (hm : m ∈ monthOrder) :
    ((monthOrder.map (completeOne y m2 c')).countP fun rec =>
        decide (rec.code = c ∧ rec.month = m)) = if c' = c then 1 else 0 := by
  rw [List.countP_map]
  by_cases he : c' = c
  · rw [if_pos he]
    have h1 : ((fun rec => decide (rec.code = c ∧ rec.month = m)) ∘ completeOne y m2 c') =
        fun mo => decide (mo = m) := by
      funext mo
      show decide ((completeOne y m2 c' mo).code = c ∧ (completeOne y m2 c' mo).month = m) = _
      rw [code_completeOne, month_completeOne, he]
      simp
    rw [h1]
    exact countP_eq_one_of_nodup monthOrder_nodup hm
  · rw [if_neg he]
    apply List.countP_eq_zero.mpr
    intro mo _
    show ¬ (decide ((completeOne y m2 c' mo).code = c ∧ (completeOne y m2 c' mo).month = m) = true)
    rw [code_completeOne, month_completeOne]
    simp [he]

theorem completeRows_countP_code {y : Nat} {codes : List Cell} {m2 : List MRec2} {c : Cell}
    (hnd : codes.Nodup) (hc : c ∈ codes) :
    ((completeRows y codes m2).countP fun rec => decide (rec.code = c)) = 12 := by
  unfold completeRows
  rw [countP_flatMap']
  rw [map_congr_mem fun c' _ => block_countP_code y m2 c' c]
  exact sum_map_ite_count hnd hc

theorem completeRows_countP_pair {y : Nat} {codes : List Cell} {m2 : List MRec2} {c : Cell}
    {m : String} (hnd : codes.Nodup) (hc : c ∈ codes) (hm : m ∈ monthOrder) :
    ((completeRows y codes m2).countP fun rec =>
      decide (rec.code = c ∧ rec.month = m)) = 1 := by
  unfold completeRows
  rw [countP_flatMap']
  rw [map_congr_mem fun c' _ => block_countP_pair y m2 c' c m hm]
  exact sum_map_ite_count hnd hc

theorem completeRows_keys (y : Nat) (m2 : List MRec2) (codes : List Cell) :
    (completeRows y codes m2).map (fun rec => (rec.code, rec.month)) =
      codes.flatMap fun c => monthOrder.map fun mo => (c, mo) := by
  unfold completeRows
  rw [List.map_flatMap]
  have h : ∀ c', ((monthOrder.map (completeOne y m2 c')).map fun rec =>
      (rec.code, rec.month)) = monthOrder.map fun mo => (c', mo) := by
    intro c'
    rw [List.map_map]
    apply map_congr_mem
    intro mo _
    show ((completeOne y m2 c' mo).code, (completeOne y m2 c' mo).month) = _
    rw [code_completeOne, month_completeOne]
  exact congrArg (fun f => codes.flatMap f) (funext h)

theorem completeRows_pairs_nodup {y : Nat} {codes : List Cell} {m2 : List MRec2}
    (hnd : codes.Nodup) :
    ((completeRows y codes m2).map fun rec => (rec.code, rec.month)).Nodup := by
  rw [completeRows_keys]
  show (codes.product monthOrder).Nodup
  exact List.Nodup.product hnd monthOrder_nodup

theorem mem_completeRows_elim {y : Nat} {codes : List Cell} {m2 : List MRec2} {rec : OutRec}
    (h : rec ∈ completeRows y codes m2) :
    ∃ c' ∈ codes, ∃ mo ∈ monthOrder, rec = completeOne y m2 c' mo := by
  unfold completeRows at h
  rcases List.mem_flatMap.mp h with ⟨c', hc', h2⟩
  rcases List.mem_map.mp h2 with ⟨mo, hmo, heq⟩
  exact ⟨c', hc', mo, hmo, heq.symm⟩

theorem completeOne_absent {y : Nat} {m2 : List MRec2} {c : Cell} {mo : String}
    (h : ∀ mr ∈ m2, ¬(mr.code = c ∧ mr.month2 = Cell.str mo)) :
    (completeOne y m2 c mo).source = Cell.na ∧ (completeOne y m2 c mo).value = Cell.na := by
  unfold completeOne
  cases hf : m2.find? (fun r => decide (r.code = c ∧ r.month2 = Cell.str mo)) with
  | none => exact ⟨rfl, rfl⟩
  | some r =>
    have hmem := List.mem_of_find?_eq_some hf
    have hpred := List.find?_some hf
    simp only [decide_eq_true_eq] at hpred
    exact absurd hpred (h r hmem)

/-! ### Claims C1 and C7 -/

/-- C1 counterexample: the filter (Estimate) variant has no calendar
completion; on `c1tbl`, where the code `"1000.01.01"` appears in two
validated rows, the output holds twenty-four records for that code (two per
canonical month), not twelve, with duplicated `(code, month)` pairs. -/
theorem c1_counterexample :
    (c1tbl.rows.filter rowMatches).length = 2 ∧
    (match estimatePipeline c1tbl "2020 Estimate.xlsx" with
     | .ok L => L.countP fun rec => decide (rec.code = Cell.str "1000.01.01")
     | .error _ => 0) = 24 ∧
    (match estimatePipeline c1tbl "2020 Estimate.xlsx" with
     | .ok L => L.countP fun rec =>
        decide (rec.code = Cell.str "1000.01.01" ∧ rec.month = "January")
     | .error _ => 0) = 2 := by
  refine ⟨by decide, by decide, by decide⟩

/-- C1 (corrected): the completion invariant holds for the truncate
(Actual) variant: on a successful run over a table with at least one month
column, every first-column value of the validated-and-cleaned block gets
exactly twelve output records, exactly one per canonical month, the
`(code, month)` pairs are globally duplicate-free, and a record whose
`(code, month)` pair is absent from the month-derived data is synthesized
with missing source and value.  The filter (Estimate) variant performs no
completion (see the counterexample). -/
theorem c1_actual_completion (t : Table) (name : String) (L : List OutRec) (c : Cell)
    (hok : actualPipeline t name = Except.ok L)
    (hm : t.monthHeaders ≠ [])
    (hc : c ∈ (actualCleaned t).map fun r => r.c0) :
    (L.countP fun rec => decide (rec.code = c)) = 12 ∧
    (∀ m ∈ monthOrder, (L.countP fun rec => decide (rec.code = c ∧ rec.month = m)) = 1) ∧
    ((L.map fun rec => (rec.code, rec.month)).Nodup) ∧
    (∀ rec ∈ L, (∀ mr ∈ actualMelted2 t rec.year,
        ¬(mr.code = rec.code ∧ mr.month2 = Cell.str rec.month)) →
      rec.source = Cell.na ∧ rec.value = Cell.na) := by
  rcases actual_ok_elim hok with ⟨li, y, hli, hy, hnd, hLeq⟩
  subst hLeq
  have hcodes : c ∈ actualCodes t := by
    unfold actualCodes
    apply mem_uniqueFirst.mpr
    rcases List.mem_map.mp hc with ⟨r, hr, hre⟩
    rw [← hre]
    unfold actualMelted
    refine mem_melt_codes ?_ hr
    intro he
    exact hm (by rwa [List.map_eq_nil_iff] at he)
  have hndc := nodup_uniqueFirst ((actualMelted t).map fun r => r.code)
  refine ⟨completeRows_countP_code hndc hcodes,
    fun m hmo => completeRows_countP_pair hndc hcodes hmo,
    completeRows_pairs_nodup hndc, ?_⟩
  intro rec hrec habs
  rcases mem_completeRows_elim hrec with ⟨c', _, mo, _, heq⟩
  subst heq
  rw [year_completeOne, code_completeOne, month_completeOne] at habs
  exact completeOne_absent habs

/-- Witness for `c1_actual_completion` on a concrete successful run. -/
theorem c1_actual_completion_witness :
    (c1wOut.countP fun rec => decide (rec.code = Cell.str "2000.05.10")) = 12 ∧
    (∀ m ∈ monthOrder, (c1wOut.countP fun rec =>
      decide (rec.code = Cell.str "2000.05.10" ∧ rec.month = m)) = 1) ∧
    ((c1wOut.map fun rec => (rec.code, rec.month)).Nodup) ∧
    (∀ rec ∈ c1wOut, (∀ mr ∈ actualMelted2 wtbl rec.year,
        ¬(mr.code = rec.code ∧ mr.month2 = Cell.str rec.month)) →
      rec.source = Cell.na ∧ rec.value = Cell.na) :=
  c1_actual_completion wtbl "2021 Report.xlsx" c1wOut (Cell.str "2000.05.10")
    (by decide) (by decide) (by decide)

/-- C7 counterexample: in the truncate (Actual) variant with the
non-canonical month header `"Jan"`, the validated wide triple
`("1000.01.01", "Jan", 100)` is dropped by calendar completion: no record
of the completed table carries the value 100 or the month `"Jan"`, so the
wide triples are not a subset of the completed triples. -/
theorem c7_counterexample :
    ((actualCleaned c7tbl).map fun r => r.rest.getD 0 Cell.na) = [Cell.num 100] ∧
    c7tbl.monthHeaders.map stripStr = ["Jan"] ∧
    (match actualPipeline c7tbl "2020 Actual.xlsx" with
     | .ok L => L.countP fun rec => decide (rec.value = Cell.num 100 ∨ rec.month = "Jan")
     | .error _ => 99) = 0 := by
  refine ⟨by decide, by decide, by decide⟩

/-- C7 (corrected): every `(code, month-header, value)` triple of the
validated-and-cleaned wide table reappears in the final long table with
code, source and month label unchanged and the value numerically coerced
(unparseable values become missing) — unconditionally in the filter
(Estimate) variant, and in the truncate (Actual) variant for month headers
among the twelve canonical names (non-canonical headers are dropped by
completion, see the counterexample).  Coercion touches only the `Value`
field and drops no record. -/
theorem c7_roundtrip_subset (t : Table) (name : String) (L : List OutRec) :
    (estimatePipeline t name = Except.ok L →
      ∀ r ∈ estimateCleaned t, ∀ j h2, (j, h2) ∈ withIdx 0 (t.monthHeaders.map stripStr) →
        ∃ rec ∈ L, rec.code = r.c0 ∧ rec.source = r.c1 ∧ rec.month = h2 ∧
          rec.value = toNumericCell (r.rest.getD j Cell.na)) ∧
    (actualPipeline t name = Except.ok L →
      ∀ r ∈ actualCleaned t, ∀ j h2, (j, h2) ∈ withIdx 0 (t.monthHeaders.map stripStr) →
        h2 ∈ monthOrder →
        ∃ rec ∈ L, rec.code = r.c0 ∧ rec.source = r.c1 ∧ rec.month = h2 ∧
          rec.value = toNumericCell (r.rest.getD j Cell.na)) := by
  constructor
  · intro h r hr j h2 hj
    rcases estimate_ok_elim h with ⟨y, hy, hLeq⟩
    subst hLeq
    have hmelt := mem_melt_intro hj hr
    refine ⟨⟨y, h2, r.c0, r.c1, toNumericCell (r.rest.getD j Cell.na)⟩, ?_, rfl, rfl, rfl, rfl⟩
    exact List.mem_map.mpr ⟨⟨r.c0, r.c1, h2, r.rest.getD j Cell.na⟩, hmelt, rfl⟩
  · intro h r hr j h2 hj hcan
    rcases actual_ok_elim h with ⟨li, y, hli, hy, hnd, hLeq⟩
    subst hLeq
    have hmelt : (⟨r.c0, r.c1, h2, r.rest.getD j Cell.na⟩ : MRec) ∈ actualMelted t :=
      mem_melt_intro hj hr
    have hm2 : (⟨r.c0, r.c1, Cell.str h2, r.rest.getD j Cell.na⟩ : MRec2) ∈
        actualMelted2 t y := by
      unfold actualMelted2
      apply List.mem_map.mpr
      refine ⟨_, hmelt, ?_⟩
      unfold toMRec2
      rw [monthToken_canonical y hcan]
    have hfind := find?_of_nodup_keys hm2 rfl rfl (nodupBool_iff.mp hnd)
    have hcodes : r.c0 ∈ actualCodes t := by
      unfold actualCodes
      apply mem_uniqueFirst.mpr
      apply List.mem_map.mpr
      exact ⟨_, hmelt, rfl⟩
    have hco : completeOne y (actualMelted2 t y) r.c0 h2 =
        ⟨y, h2, r.c0, r.c1, toNumericCell (r.rest.getD j Cell.na)⟩ := by
      unfold completeOne
      rw [hfind]
    refine ⟨⟨y, h2, r.c0, r.c1, toNumericCell (r.rest.getD j Cell.na)⟩, ?_, rfl, rfl, rfl, rfl⟩
    rw [← hco]
    unfold completeRows
    exact List.mem_flatMap.mpr ⟨r.c0, hcodes, List.mem_map.mpr ⟨h2, hcan, rfl⟩⟩

/-- Witness for `c7_roundtrip_subset` on concrete runs of both variants. -/
theorem c7_roundtrip_subset_witness :
    (∃ rec ∈ wOut, rec.code = Cell.str "2000.05.10" ∧
      rec.source = Cell.str "2000.05.10" ∧ rec.month = "January" ∧
      rec.value = Cell.num 7) ∧
    (∃ rec ∈ c1wOut, rec.code = Cell.str "2000.05.10" ∧
      rec.source = Cell.str "2000.05.10" ∧ rec.month = "January" ∧
      rec.value = Cell.num 7) :=
  ⟨(c7_roundtrip_subset wtbl "2021 Report.xlsx" wOut).1 (by decide)
      ⟨Cell.str "2000.05.10", Cell.str "2000.05.10", List.replicate 12 (Cell.num 7)⟩
      (by decide) 0 "January" (by decide),
   (c7_roundtrip_subset wtbl "2021 Report.xlsx" c1wOut).2 (by decide)
      ⟨Cell.str "2000.05.10", Cell.str "2000.05.10", List.replicate 12 (Cell.num 7)⟩
      (by decide) 0 "January" (by decide) (by decide)⟩

/-- Witness for `c9_estimate_source_filled`: the blank-source row of
`wtbl2` yields a record whose source equals its code. -/
theorem c9_estimate_source_filled_witness :
    (∀ rec ∈ w2Out, rec.source ≠ Cell.na) ∧
    (∃ rec ∈ w2Out, rec.month = "January" ∧
      rec.code = cleanCell (Cell.str "2000.05.10") ∧
      rec.source = cleanCell (Cell.str "2000.05.10")) :=
  ⟨(c9_estimate_source_filled wtbl2 "2020 Estimate.xlsx" w2Out (by decide)).1,
   (c9_estimate_source_filled wtbl2 "2020 Estimate.xlsx" w2Out (by decide)).2
     ⟨Cell.str "2000.05.10", Cell.na, [Cell.num 150]⟩ (by decide) (by decide) rfl
     0 "January" (by decide)⟩

end RevenuePipeline
